import Mathlib

/-!
# Verification of the Milvus document-store connector

Shallow embedding of `rag/utils/milvus_conn.py` (class `MilvusConnection`):
the tenant/collection router, the schema built by `createIdx`, and the CRUD
and search operations, modelled as pure functions over an explicit store
state.  Remote-engine behaviour (ANN ordering, remote faults) is abstracted
as function parameters so that the connector's own control flow — existence
checks, early returns, exception-to-default catches — is what the theorems
are about.
-/

namespace MilvusConn

/-- A scalar field value of a document row.  Python strings become `vstr`,
ints/bools become `vint`, lists (including embedding vectors) become
`vlist`. -/
inductive Value where
  | vstr (s : String)
  | vint (n : Int)
  | vlist (l : List Value)

/-- Python comparison `v == s` between a dict value and a string
(a non-string value is simply unequal to a string). -/
def Value.isStr : Value → String → Bool
  | .vstr t, s => t = s
  | _, _ => false

/-- Equality between a stored scalar value and a filter-expression literal,
as evaluated by the engine (`'s'` string literals, unquoted numerics). -/
def litEq : Value → Value → Bool
  | .vstr a, .vstr b => a = b
  | .vint a, .vint b => a = b
  | _, _ => false

/-- A document row: a Python dict modelled as an insertion-ordered
association list with unique keys. -/
abbrev Doc := List (String × Value)

/-- `d[k]` lookup of a Python dict: the (unique) binding of `k`. -/
def dictGet : Doc → String → Option Value
  | [], _ => none
  | p :: ps, k => if p.1 = k then some p.2 else dictGet ps k

/-- `k in d` membership test of a Python dict. -/
def dictHas (d : Doc) (k : String) : Bool :=
  (dictGet d k).isSome

/-- `d[k] = v` assignment of a Python dict: replaces the binding in place if
the key is present, appends a new binding at the end otherwise. -/
def dictSet : Doc → String → Value → Doc
  | [], k, v => [(k, v)]
  | p :: ps, k, v => if p.1 = k then (k, v) :: ps else p :: dictSet ps k v

theorem dictGet_dictSet_self (d : Doc) (k : String) (v : Value) :
    dictGet (dictSet d k v) k = some v := by
  induction d with
  | nil => simp [dictSet, dictGet]
  | cons p ps ih =>
    by_cases h : p.1 = k
    · simp [dictSet, dictGet, h]
    · simp [dictSet, dictGet, h, ih]

theorem dictGet_dictSet_ne (d : Doc) (k k' : String) (v : Value)
    (h : k ≠ k') : dictGet (dictSet d k v) k' = dictGet d k' := by
  induction d with
  | nil => simp [dictSet, dictGet, h]
  | cons p ps ih =>
    by_cases hp : p.1 = k
    · simp [dictSet, dictGet, hp, h]
    · by_cases hp' : p.1 = k'
      · simp [dictSet, dictGet, hp, hp', Ne.symm h]
      · simp [dictSet, dictGet, hp, hp', ih]

/-! ## Tenant/Collection router

`createIdx`, `deleteIdx`, `indexExist`, `search`, `get`, `insert`, `update`,
`delete` all compute
`collection_name = f"{indexName}_{knowledgebaseId}".replace("-", "_")`.
Since the pattern `"-"` is a single character, Python's `str.replace` is the
character-wise map below. -/

/-- `s.replace("-", "_")`: every hyphen becomes an underscore. -/
def sanitize (s : String) : String :=
  ⟨s.data.map (fun c => if c = '-' then '_' else c)⟩

/-- The collection id resolved from an index name and a knowledge-base id:
`f"{indexName}_{knowledgebaseId}".replace("-", "_")`. -/
def resolve (indexName knowledgebaseId : String) : String :=
  sanitize (indexName ++ "_" ++ knowledgebaseId)

/-- Collection-name resolution with an optional knowledge-base id, as in
`indexExist` / `getTotal` / `getChunkIds`: when the knowledge-base id is
`None`, the name argument is treated as the full collection name. -/
def resolveOpt (name : String) (knowledgebaseId : Option String) : String :=
  match knowledgebaseId with
  | some kb => resolve name kb
  | none => name

/-! ## Collection schema (`createIdx`) -/

/-- Milvus field data types used by the connector. -/
inductive DType where
  | varchar
  | int32
  | float
  | floatVector
deriving DecidableEq

/-- One `FieldSchema(...)` entry of the collection schema. -/
structure FieldDef where
  name : String
  dtype : DType
  maxLength : Option Nat := none
  isPrimary : Bool := false
  dim : Option Nat := none
deriving DecidableEq

/-- The field list `createIdx` passes to `CollectionSchema`, with
`MAX_VARCHAR_LENGTH = 1024`, `ID_VARCHAR_LENGTH = 255`, and the embedding
field named `q_{vectorSize}_vec` of the requested width. -/
def milvusFields (vectorSize : Nat) : List FieldDef :=
  [ { name := "id", dtype := .varchar, maxLength := some 255, isPrimary := true },
    { name := "kb_id", dtype := .varchar, maxLength := some 255 },
    { name := "doc_id", dtype := .varchar, maxLength := some 255 },
    { name := "docnm_kwd", dtype := .varchar, maxLength := some 1024 },
    { name := "content_ltks", dtype := .varchar, maxLength := some 65535 },
    { name := "name_tks", dtype := .varchar, maxLength := some 1024 },
    { name := "important_kwd", dtype := .varchar, maxLength := some 1024 },
    { name := "question_tks", dtype := .varchar, maxLength := some 1024 },
    { name := "page_num_int", dtype := .int32 },
    { name := "create_timestamp_flt", dtype := .float },
    { name := "q_" ++ toString vectorSize ++ "_vec", dtype := .floatVector,
      dim := some vectorSize } ]

/-- The name of the first `FLOAT_VECTOR` field of a schema — the loop
`for field in collection.schema.fields: if field.dtype == DataType.FLOAT_VECTOR`
used by `insert`, `update` and `search`. -/
def vectorFieldName (fields : List FieldDef) : Option String :=
  (fields.find? (fun f => f.dtype == DType.floatVector)).map (fun f => f.name)

/-! ## Store state

One tenant database: a map from collection name to its schema and rows.
`utility.has_collection` is lookup success; collection creation appends a
binding. -/

/-- A Milvus collection: its schema and its stored rows. -/
structure Coll where
  schema : List FieldDef
  rows : List Doc

/-- The tenant's database: collections keyed by name. -/
abbrev State := List (String × Coll)

/-- `utility.has_collection` / fetching a collection handle. -/
def getColl : State → String → Option Coll
  | [], _ => none
  | p :: ps, n => if p.1 = n then some p.2 else getColl ps n

/-- Replace the contents of an existing collection. -/
def setColl : State → String → Coll → State
  | [], _, _ => []
  | p :: ps, n, c => if p.1 = n then (n, c) :: ps else p :: setColl ps n c

/-- `indexExist(indexName, knowledgebaseId)`: `has_collection` on the
resolved name; any check failure degrades to `false` (so in this fault-free
state model it is exactly lookup success). -/
def indexExist (s : State) (indexName : String)
    (knowledgebaseId : Option String) : Bool :=
  (getColl s (resolveOpt indexName knowledgebaseId)).isSome

/-- Errors raised by the connector (Python exceptions). -/
inductive Err where
  | notFound (collection : String)
  | noVectorField (collection : String)
  | missingVector (docId : Option Value)
  | createError

/-- `createIdx(indexName, knowledgebaseId, vectorSize)`.

If the resolved collection already exists the call returns before the
`try` block (a logged no-op).  Otherwise the collection is created with
`milvusFields vectorSize`, indexed and loaded; `remoteFault` injects a
remote failure of that create/index/load sequence, which the code re-raises
(`Except.error`). -/
def createIdx (s : State) (indexName knowledgebaseId : String)
    (vectorSize : Nat) (remoteFault : Bool) : Except Err State :=
  let collectionName := resolve indexName knowledgebaseId
  if indexExist s indexName (some knowledgebaseId) then
    .ok s
  else if remoteFault then
    .error .createError
  else
    .ok (s ++ [(collectionName, { schema := milvusFields vectorSize, rows := [] })])

/-! ## `insert` -/

/-- `d.pop(k)`: remove the binding of `k`. -/
def dictRemove : Doc → String → Doc
  | [], _ => []
  | p :: ps, k => if p.1 = k then ps else p :: dictRemove ps k

/-- Per-document preparation of `insert`: move the vector from the transient
`embedding` key to the schema's vector field (`prepared_doc[vector_field_name]
= prepared_doc.pop('embedding')`), raise if the vector is under neither key,
then stamp `kb_id` when absent and the knowledge-base id is non-empty. -/
def prepareDoc (vecField knowledgebaseId : String) (doc : Doc) : Except Err Doc :=
  let withVec : Except Err Doc :=
    match dictGet doc "embedding", dictHas doc vecField with
    | some v, false => .ok (dictSet (dictRemove doc "embedding") vecField v)
    | _, _ =>
      if dictHas doc vecField then .ok doc
      else .error (.missingVector (dictGet doc "id"))
  match withVec with
  | .error e => .error e
  | .ok d =>
    if dictHas d "kb_id" = false && knowledgebaseId != "" then
      .ok (dictSet d "kb_id" (.vstr knowledgebaseId))
    else .ok d

/-- `insert(documents, indexName, knowledgebaseId)`.

Raises (`Except.error`) when the resolved collection does not exist
(`ValueError: Collection ... does not exist` — the spec's `NotFoundError`),
when the schema has no float-vector field, or when a document carries no
vector.  On success the prepared rows are appended and the empty error list
is returned.  The state is threaded unchanged through every error path. -/
def insert (s : State) (documents : List Doc)
    (indexName knowledgebaseId : String) :
    Except Err (List String) × State :=
  let collectionName := resolve indexName knowledgebaseId
  match getColl s collectionName with
  | none => (.error (.notFound collectionName), s)
  | some coll =>
    match vectorFieldName coll.schema with
    | none => (.error (.noVectorField collectionName), s)
    | some vecField =>
      match documents.mapM (prepareDoc vecField knowledgebaseId) with
      | .error e => (.error e, s)
      | .ok prepared =>
        if prepared.isEmpty then (.ok [], s)
        else
          (.ok [], setColl s collectionName
            { schema := coll.schema, rows := coll.rows ++ prepared })

/-! ## `update` -/

/-- The engine-side row predicate of the expression
`id == '<docId>'` (optionally `and kb_id == '<kb>'`) used both to query the
existing row and to delete it. -/
def queryMatch (docId : String) (kbCond : Option String) (r : Doc) : Bool :=
  (match dictGet r "id" with
   | some v => v.isStr docId
   | none => false)
  && (match kbCond with
      | none => true
      | some kb =>
        match dictGet r "kb_id" with
        | some v => v.isStr kb
        | none => false)

/-- `query(..., output_fields=schema_fields)`: the returned entity carries
exactly the requested fields that the row has. -/
def projRow (fields : List String) (r : Doc) : Doc :=
  fields.filterMap (fun f => (dictGet r f).map (fun v => (f, v)))

/-- One iteration of the merge loop `for key, value in newValue.items()`:
an `id` key with a different value is skipped; a key naming the vector field
while `embedding` is also supplied takes the `embedding` value; an
`embedding` key is renamed to the vector field; any other key overwrites. -/
def mergeStep (docId : String) (vecField : Option String)
    (embeddingVal : Option Value) (acc : Doc) (kv : String × Value) : Doc :=
  if kv.1 = "id" ∧ kv.2.isStr docId = false then
    acc
  else
    match embeddingVal, vecField with
    | some ev, some vf =>
      if kv.1 = vf then dictSet acc vf ev
      else if kv.1 = "embedding" then dictSet acc vf kv.2
      else dictSet acc kv.1 kv.2
    | none, some vf =>
      if kv.1 = "embedding" then dictSet acc vf kv.2
      else dictSet acc kv.1 kv.2
    | _, none => dictSet acc kv.1 kv.2

/-- The merge loop of `update`, folded over `newValue` in dict order,
starting from the deep copy of the fetched row. -/
def mergeNewValues (original : Doc) (docId : String) (newValue : Doc)
    (vecField : Option String) : Doc :=
  newValue.foldl (mergeStep docId vecField (dictGet newValue "embedding")) original

/-- `if 'kb_id' not in updated_doc: updated_doc['kb_id'] =
original_doc.get('kb_id', knowledgebaseId)`. -/
def ensureKb (d original : Doc) (knowledgebaseId : String) : Doc :=
  if dictHas d "kb_id" then d
  else dictSet d "kb_id" ((dictGet original "kb_id").getD (.vstr knowledgebaseId))

/-- The optional `kb_id` narrowing of the update filter: only a
string-valued `kb_id` in the condition adds `and kb_id == '...'`. -/
def kbCondOf (condition : Doc) : Option String :=
  match dictGet condition "kb_id" with
  | some (.vstr kb) => some kb
  | _ => none

/-- `update(condition, newValue, indexName, knowledgebaseId) -> bool`.

Returns `false` leaving the store untouched when the collection is absent,
when `condition` has no string `id`, or when no row matches the id (and
optional `kb_id`) filter.  Otherwise: fetch the first matching row projected
to the schema fields, delete the matching rows, merge `newValue` onto the
fetched row, re-insert the merged row, and return `true`. -/
def update (s : State) (condition newValue : Doc)
    (indexName knowledgebaseId : String) : Bool × State :=
  let collectionName := resolve indexName knowledgebaseId
  match getColl s collectionName with
  | none => (false, s)
  | some coll =>
    match dictGet condition "id" with
    | some (.vstr docId) =>
      let kbCond := kbCondOf condition
      let schemaFields := coll.schema.map (fun f => f.name)
      match (coll.rows.filter (queryMatch docId kbCond)).head? with
      | none => (false, s)
      | some row =>
        let original := projRow schemaFields row
        let remaining := coll.rows.filter (fun r => !(queryMatch docId kbCond r))
        let vecField := vectorFieldName coll.schema
        let merged :=
          ensureKb (mergeNewValues original docId newValue vecField)
            original knowledgebaseId
        (true, setColl s collectionName
          { schema := coll.schema, rows := remaining ++ [merged] })
    | _ => (false, s)

/-! ## `delete` -/

/-- Engine equality between a row's field and a filter literal. -/
def rowLit (r : Doc) (field : String) (lit : Value) : Bool :=
  match dictGet r field with
  | some v => litEq v lit
  | none => false

/-- Outcome of the `if "id" in condition` block of `delete`: no clause,
an early `return 0` (empty id list, or an id of unsupported type), or a
row predicate for the generated clause. -/
inductive IdClause where
  | absent
  | earlyZero
  | pred (p : Doc → Bool)

/-- The id clause of the delete filter: `id in [...]` for a list (empty
list and non-list/non-string ids return 0 early), `id == '...'` for a
string. -/
def idClause (condition : Doc) : IdClause :=
  match dictGet condition "id" with
  | none => .absent
  | some (.vlist []) => .earlyZero
  | some (.vlist ids) => .pred (fun r => ids.any (fun i => rowLit r "id" i))
  | some (.vstr i) => .pred (fun r => rowLit r "id" (.vstr i))
  | some (.vint _) => .earlyZero

/-- The optional `kb_id == '...'` clause of the delete filter (only a
string-valued `kb_id` contributes a clause). -/
def kbClause (condition : Doc) : Option (Doc → Bool) :=
  match dictGet condition "kb_id" with
  | some (.vstr kb) => some (fun r => rowLit r "kb_id" (.vstr kb))
  | _ => none

/-- `delete(condition, indexName, knowledgebaseId) -> int`.

Builds `expr_parts` from the `id` and `kb_id` keys of `condition`; when no
clause results (`if not expr_parts`) it returns 0 without issuing a delete.
Otherwise the engine removes the rows matching the conjunction and the
reported `delete_count` is returned. -/
def delete (s : State) (condition : Doc)
    (indexName knowledgebaseId : String) : Nat × State :=
  let collectionName := resolve indexName knowledgebaseId
  match getColl s collectionName with
  | none => (0, s)
  | some coll =>
    let run : (Doc → Bool) → Nat × State := fun p =>
      ((coll.rows.filter p).length,
        setColl s collectionName
          { schema := coll.schema, rows := coll.rows.filter (fun r => !(p r)) })
    match idClause condition with
    | .earlyZero => (0, s)
    | .absent =>
      match kbClause condition with
      | none => (0, s)
      | some pk => run pk
    | .pred pid =>
      match kbClause condition with
      | none => run pid
      | some pk => run (fun r => pid r && pk r)

/-! ## `getTotal`

The remote calls made by `getTotal` are abstracted as oracles returning
`Except Unit _`, an `error` meaning the call raised.  `indexExist` catches
any failure of `has_collection` to `false`; the outer `try` of `getTotal`
catches any failure of `flush`/`num_entities` to the return value 0.  The
function's codomain is `Nat`: it can never propagate an exception. -/
def getTotal (hasCollection : String → Except Unit Bool)
    (flush : String → Except Unit Unit)
    (numEntities : String → Except Unit Nat)
    (name : String) (knowledgebaseId : Option String) : Nat :=
  let collectionName := resolveOpt name knowledgebaseId
  let collExists : Bool :=
    match hasCollection collectionName with
    | .ok b => b
    | .error _ => false
  let body : Except Unit Nat :=
    if collExists then
      match flush collectionName with
      | .error e => .error e
      | .ok _ => numEntities collectionName
    else .ok 0
  match body with
  | .ok n => n
  | .error _ => 0

/-! ## `search` -/

/-- A match expression handed to `search`: a dense query vector
(`MatchDenseExpr`, vector components modelled as integers) or a text match
(`MatchTextExpr`, skipped by the Milvus connector). -/
inductive MatchExpr where
  | dense (data : List Int)
  | text (field text : String)

/-- One hit of an engine search: the returned entity and its distance. -/
structure Hit where
  entity : Doc
  distance : Int

/-- One `f"'{v}'" if isinstance(v, str) else str(v)` element of a
membership list (list-valued elements do not occur in conditions). -/
def fmtElem : Value → String
  | .vstr v => "'" ++ v ++ "'"
  | .vint n => toString n
  | .vlist _ => "[...]"

/-- One clause of the scalar filter built by `search`: membership for a
list value, quoted equality for a string, unquoted equality otherwise. -/
def clauseFor (field : String) (value : Value) : String :=
  match value with
  | .vlist l => field ++ " in [" ++ String.intercalate ", " (l.map fmtElem) ++ "]"
  | .vstr v => field ++ " == '" ++ v ++ "'"
  | .vint n => field ++ " == " ++ toString n

/-- `final_filter_expr`: the clauses of all condition entries joined with
`" and "`; an empty condition yields the empty expression. -/
def buildFilterExpr (condition : Doc) : String :=
  String.intercalate " and " (condition.map (fun p => clauseFor p.1 p.2))

/-- `actual_output_fields`: all non-vector schema fields (plus `id`) when
the selection is empty or `"*"`, otherwise the selected fields plus `id`
(Python materialises the latter as `list(set(...))`, whose iteration order
is unspecified; the engine treats it as a set, modelled here by `dedup`). -/
def outputFields (selectFields : List String) (schema : List FieldDef) :
    List String :=
  if selectFields.isEmpty || selectFields.contains "*" then
    let base := (schema.filter (fun f => f.dtype != .floatVector)).map
      (fun f => f.name)
    if base.contains "id" then base else base ++ ["id"]
  else
    (selectFields ++ ["id"]).dedup

/-- The ANN oracle: for a collection name, vector field, query vector,
filter expression and output fields, the engine's full distance-ordered hit
list; `collection.search(..., limit=k)` returns its first `k` entries. -/
abbrev AnnOracle := String → String → List Int → String → List String → List Hit

/-- Python list slicing `hits[a : b]` for non-negative bounds. -/
def pySlice (l : List Hit) (a b : Nat) : List Hit :=
  (l.take b).drop a

/-- `result_doc = hit.entity.to_dict(); result_doc['score'] = hit.distance`. -/
def annotate (h : Hit) : Doc :=
  dictSet h.entity "score" (.vint h.distance)

/-- The `for expr in matchExprs` body: a text expression is skipped with a
warning; a dense expression issues an engine search with
`limit = limit + offset`, slices `hits[offset : offset + limit]`
client-side, annotates each hit with its distance under `score`, and
appends to the accumulator.  A schema without a float-vector field skips
the dense search. -/
def searchOne (ann : AnnOracle) (schema : List FieldDef)
    (collectionName filterExpr : String) (outFields : List String)
    (offset limit : Nat) (acc : List Doc) (expr : MatchExpr) : List Doc :=
  match expr with
  | .text _ _ => acc
  | .dense v =>
    match vectorFieldName schema with
    | none => acc
    | some vecField =>
      let searchResults :=
        (ann collectionName vecField v filterExpr outFields).take (limit + offset)
      let paginatedHits := pySlice searchResults offset (offset + limit)
      acc ++ paginatedHits.map annotate

/-- The `for kb_id in knowledgebaseIds` body: a knowledge base whose
resolved collection does not exist is skipped with a warning; otherwise the
filter expression is built once and every match expression is processed. -/
def searchKb (ann : AnnOracle) (s : State) (currentIndexName : String)
    (selectFields : List String) (condition : Doc)
    (matchExprs : List MatchExpr) (offset limit : Nat)
    (acc : List Doc) (kbId : String) : List Doc :=
  let collectionName := resolve currentIndexName kbId
  match getColl s collectionName with
  | none => acc
  | some coll =>
    let filterExpr := buildFilterExpr condition
    let outFields := outputFields selectFields coll.schema
    matchExprs.foldl
      (searchOne ann coll.schema collectionName filterExpr outFields offset limit)
      acc

/-- `search(selectFields, ..., condition, matchExprs, ..., offset, limit,
indexNames, knowledgebaseIds)`.

Empty `knowledgebaseIds` returns `[]` at once; then
`current_index_name = indexNames[0]` (an `IndexError` on an empty list,
modelled as `Except.error`); then the per-knowledge-base accumulation.
A plain-string `indexNames` argument behaves as the singleton list. -/
def search (ann : AnnOracle) (s : State) (selectFields : List String)
    (condition : Doc) (matchExprs : List MatchExpr) (offset limit : Nat)
    (indexNames : List String) (knowledgebaseIds : List String) :
    Except String (List Doc) :=
  if knowledgebaseIds.isEmpty then .ok []
  else
    match indexNames with
    | [] => .error "IndexError: list index out of range"
    | currentIndexName :: _ =>
      .ok (knowledgebaseIds.foldl
        (searchKb ann s currentIndexName selectFields condition matchExprs
          offset limit) [])

/-! ## Document codec

Modelled from the spec: the Document Codec's field transforms — joining a
keyword-list into a `###`-separated string, flattening packed-integer-array
fields (page-position 5-tuples) into fixed-width hexadecimal joined by `_`,
and serialising feature maps to a compact `tag:weight` string — together
with their inverses, are not part of the Milvus connector under `src/`
(its insert path applies only the embedding-key rename and `kb_id` stamp);
they are modelled here from spec §4.4.  Strings are represented as `List
Char`. -/

/-- The dedicated multi-character keyword-list separator. -/
def sepKW : List Char := ['#', '#', '#']

/-- Join a list of strings with a separator string. -/
def joinSep (sep : List Char) : List (List Char) → List Char
  | [] => []
  | [x] => x
  | x :: xs => x ++ sep ++ joinSep sep xs

/-- Split on the three-character separator `###`, scanning left to right. -/
def splitKW : List Char → List Char → List (List Char)
  | [], acc => [acc.reverse]
  | c :: c2 :: c3 :: rest, acc =>
    if c = '#' ∧ c2 = '#' ∧ c3 = '#' then acc.reverse :: splitKW rest []
    else splitKW (c2 :: c3 :: rest) (c :: acc)
  | c :: cs, acc => splitKW cs (c :: acc)

/-- Split on a single-character separator, scanning left to right. -/
def splitChar (sep : Char) : List Char → List Char → List (List Char)
  | [], acc => [acc.reverse]
  | c :: cs, acc =>
    if c = sep then acc.reverse :: splitChar sep cs []
    else splitChar sep cs (c :: acc)

/-- The hexadecimal digits of `n`, most significant first, padded to
width `w`. -/
def hexDigits : Nat → Nat → List Nat
  | 0, _ => []
  | w + 1, n => hexDigits w (n / 16) ++ [n % 16]

/-- Positional value of a most-significant-first digit list. -/
def parseHexDigits (ds : List Nat) : Nat :=
  ds.foldl (fun a d => a * 16 + d) 0

/-- The character of one hexadecimal digit. -/
def hexChar (d : Nat) : Char :=
  "0123456789abcdef".toList.getD d '?'

/-- The value of one hexadecimal character. -/
def hexCharVal (c : Char) : Option Nat :=
  "0123456789abcdef".toList.indexOf? c

/-- An integer encoded as exactly eight hexadecimal characters. -/
def hex8 (n : Nat) : List Char :=
  (hexDigits 8 n).map hexChar

/-- Parse an eight-character fixed-width hexadecimal block. -/
def parseHex8 (s : List Char) : Option Nat :=
  if s.length = 8 then (s.mapM hexCharVal).map parseHexDigits else none

/-- Regroup the flattened integers into the 5-tuples of page-position
data; fails when the count is not a multiple of five. -/
def chunk5 : List Nat → Option (List (List Nat))
  | [] => some []
  | a :: b :: c :: d :: e :: rest =>
    (chunk5 rest).map (fun gs => [a, b, c, d, e] :: gs)
  | _ => none

/-- First split at a given character: the part before and the part after. -/
def splitFirst (c : Char) : List Char → Option (List Char × List Char)
  | [] => none
  | d :: ds =>
    if d = c then some ([], ds)
    else (splitFirst c ds).map (fun p => (d :: p.1, p.2))

/-- The semantic kind a field's mapping configuration declares. -/
inductive FieldKind where
  | keywordList
  | packedInts
  | featureMap
deriving DecidableEq

/-- An application-level value of a codec-covered field: a keyword list, a
nested packed-integer array, a feature map, or (decode-side only) the raw
fallback for malformed stored data. -/
inductive CodecVal where
  | kws (l : List (List Char))
  | packed (groups : List (List Nat))
  | feats (m : List (List Char × Nat))
  | raw (s : List Char)

/-- Encode one codec-covered field value into its stored string form. -/
def encodeVal : CodecVal → List Char
  | .kws l => joinSep sepKW l
  | .packed gs => joinSep ['_'] ((gs.flatten).map hex8)
  | .feats m => joinSep [';'] (m.map (fun p => p.1 ++ ':' :: hex8 p.2))
  | .raw s => s

/-- Decode a keyword-list string: the empty string is the empty list. -/
def decodeKws (s : List Char) : CodecVal :=
  .kws (if s = [] then [] else splitKW s [])

/-- Parse a packed-integer-array string back into its 5-tuples. -/
def parsePacked (s : List Char) : Option (List (List Nat)) :=
  if s = [] then some []
  else
    match (splitChar '_' s []).mapM parseHex8 with
    | none => none
    | some nums => chunk5 nums

/-- Parse one `tag:weight` feature entry. -/
def parseFeatEntry (s : List Char) : Option (List Char × Nat) :=
  match splitFirst ':' s with
  | none => none
  | some p => (parseHex8 p.2).map (fun v => (p.1, v))

/-- Parse a serialised feature map. -/
def parseFeats (s : List Char) : Option (List (List Char × Nat)) :=
  if s = [] then some []
  else (splitChar ';' s []).mapM parseFeatEntry

/-- Decode one stored string according to the field's declared kind;
malformed packed or feature data falls back to the raw string rather than
raising. -/
def decodeVal (kind : FieldKind) (s : List Char) : CodecVal :=
  match kind with
  | .keywordList => decodeKws s
  | .packedInts =>
    match parsePacked s with
    | some gs => .packed gs
    | none => .raw s
  | .featureMap =>
    match parseFeats s with
    | some m => .feats m
    | none => .raw s

/-- Well-formedness of a field value for its declared kind: keywords are
non-empty and avoid the reserved separator character, packed groups are
position 5-tuples of integers below `16 ^ 8`, feature tags avoid the two
reserved characters and weights fit the fixed hexadecimal width. -/
def WellFormedFor (kind : FieldKind) : CodecVal → Prop
  | .kws l => kind = .keywordList ∧ ∀ x ∈ l, x ≠ [] ∧ '#' ∉ x
  | .packed gs =>
    kind = .packedInts ∧ ∀ g ∈ gs, g.length = 5 ∧ ∀ n ∈ g, n < 16 ^ 8
  | .feats m =>
    kind = .featureMap ∧ ∀ p ∈ m, ';' ∉ p.1 ∧ ':' ∉ p.1 ∧ p.2 < 16 ^ 8
  | .raw _ => False

instance (kind : FieldKind) (v : CodecVal) : Decidable (WellFormedFor kind v) := by
  cases v <;> simp only [WellFormedFor] <;> infer_instance

/-- An application-level document restricted to codec-covered fields. -/
abbrev CodecDoc := List (String × CodecVal)

/-- An engine row holding the stored string forms. -/
abbrev Row := List (String × List Char)

/-- Field lookup in a codec document. -/
def cdictGet : CodecDoc → String → Option CodecVal
  | [], _ => none
  | p :: ps, k => if p.1 = k then some p.2 else cdictGet ps k

/-- Field lookup in an engine row. -/
def rowGet : Row → String → Option (List Char)
  | [], _ => none
  | p :: ps, k => if p.1 = k then some p.2 else rowGet ps k

/-- Encode every covered field of a document (the insert-path encoding). -/
def encodeRow (d : CodecDoc) : Row :=
  d.map (fun p => (p.1, encodeVal p.2))

/-- Decode a row, applied only to the requested fields, each according to
its declared kind. -/
def decodeRow (kindOf : String → FieldKind) (r : Row)
    (requested : List String) : CodecDoc :=
  requested.filterMap
    (fun f => (rowGet r f).map (fun s => (f, decodeVal (kindOf f) s)))

/-- The document restricted to the requested fields. -/
def restrictDoc (d : CodecDoc) (requested : List String) : CodecDoc :=
  requested.filterMap (fun f => (cdictGet d f).map (fun v => (f, v)))

/-! ## Helper lemmas -/

theorem sanitize_clean (s : String) (h : ∀ c ∈ s.data, c ≠ '-') :
    sanitize s = s := by
  cases s with
  | mk data =>
    simp only [sanitize]
    congr 1
    have hmap : data.map (fun c => if c = '-' then '_' else c) = data.map id :=
      List.map_congr_left (fun c hc => by simp [h c hc])
    simpa using hmap

theorem append_sep_inj {α : Type} (x : α) :
    ∀ a c b d : List α, x ∉ a → x ∉ c →
      a ++ x :: b = c ++ x :: d → a = c ∧ b = d := by
  intro a
  induction a with
  | nil =>
    intro c b d _ hc heq
    cases c with
    | nil => simpa using heq
    | cons hc0 tc =>
      rw [List.nil_append, List.cons_append] at heq
      injection heq with h1 h2
      subst h1
      exact absurd (List.mem_cons_self x tc) hc
  | cons ha ta ih =>
    intro a b d hax hc heq
    cases a with
    | nil =>
      rw [List.cons_append, List.nil_append] at heq
      injection heq with h1 h2
      subst h1
      exact absurd (List.mem_cons_self ha ta) hax
    | cons hc0 tc =>
      rw [List.cons_append, List.cons_append] at heq
      injection heq with h1 h2
      have hta := ih tc b d (fun hm => hax (List.mem_cons_of_mem ha hm))
        (fun hm => hc (List.mem_cons_of_mem hc0 hm)) h2
      exact ⟨by rw [h1, hta.1], hta.2⟩

theorem getColl_append_right (s t : State) (n : String)
    (h : getColl s n = none) : getColl (s ++ t) n = getColl t n := by
  induction s with
  | nil => rfl
  | cons p ps ih =>
    by_cases hp : p.1 = n
    · simp [getColl, hp] at h
    · simp only [getColl, List.cons_append, if_neg hp] at h ⊢
      exact ih h

theorem getColl_none_filter (s : State) (n : String)
    (h : getColl s n = none) : s.filter (fun p => p.1 == n) = [] := by
  induction s with
  | nil => rfl
  | cons p ps ih =>
    by_cases hp : p.1 = n
    · simp [getColl, hp] at h
    · simp only [getColl, if_neg hp] at h
      have hbp : (p.1 == n) = false := by simp [hp]
      simp [List.filter_cons, hbp, ih h]

/-! ## Claim C2 -/

/-- C2 counterexample: over the realistic id-character space (letters and
hyphens), the distinct pairs `("a", "b-c")` and `("a-b", "c")` sanitize to
the same collection id `"a_b_c"` — the mapping is not injective. -/
theorem resolve_not_injective_hyphen_collision :
    resolve "a" "b-c" = resolve "a-b" "c" ∧
    ¬ (("a" : String) = "a-b" ∧ ("b-c" : String) = "c") := by
  constructor
  · rfl
  · decide

/-- C2 (amended): `resolve` is deterministic — it is the pure function
`f"{indexName}_{knowledgebaseId}".replace("-", "_")` of its inputs, so two
calls with the same inputs definitionally give the same id — and it is
injective on pairs whose components contain neither `'-'` nor `'_'`
(hyphenated ids can collide, as the counterexample shows). -/
theorem resolve_injective_on_clean_ids
    (i1 k1 i2 k2 : String)
    (hi1 : ∀ c ∈ i1.data, c ≠ '-' ∧ c ≠ '_')
    (hk1 : ∀ c ∈ k1.data, c ≠ '-' ∧ c ≠ '_')
    (hi2 : ∀ c ∈ i2.data, c ≠ '-' ∧ c ≠ '_')
    (hk2 : ∀ c ∈ k2.data, c ≠ '-' ∧ c ≠ '_')
    (heq : resolve i1 k1 = resolve i2 k2) : i1 = i2 ∧ k1 = k2 := by
  have hs1 : resolve i1 k1 = i1 ++ "_" ++ k1 := by
    apply sanitize_clean
    intro c hc
    simp only [String.data_append] at hc
    rcases List.mem_append.1 hc with hc | hc
    · rcases List.mem_append.1 hc with hc | hc
      · exact (hi1 c hc).1
      · simp only [show ("_" : String).data = ['_'] from rfl, List.mem_singleton] at hc
        simp [hc]
    · exact (hk1 c hc).1
  have hs2 : resolve i2 k2 = i2 ++ "_" ++ k2 := by
    apply sanitize_clean
    intro c hc
    simp only [String.data_append] at hc
    rcases List.mem_append.1 hc with hc | hc
    · rcases List.mem_append.1 hc with hc | hc
      · exact (hi2 c hc).1
      · simp only [show ("_" : String).data = ['_'] from rfl, List.mem_singleton] at hc
        simp [hc]
    · exact (hk2 c hc).1
  rw [hs1, hs2] at heq
  have hdata := congrArg String.data heq
  simp only [String.data_append, show ("_" : String).data = ['_'] from rfl,
    List.append_assoc, List.singleton_append] at hdata
  have hinj := append_sep_inj '_' i1.data i2.data k1.data k2.data
    (fun hm => (hi1 '_' hm).2 rfl) (fun hm => (hi2 '_' hm).2 rfl) hdata
  exact ⟨congrArg String.mk hinj.1, congrArg String.mk hinj.2⟩

/-- Witness for C2 (amended) at concrete hyphen- and underscore-free ids. -/
theorem resolve_injective_on_clean_ids_witness :
    ("ab" : String) = "ab" ∧ ("cd" : String) = "cd" :=
  resolve_injective_on_clean_ids "ab" "cd" "ab" "cd"
    (by decide) (by decide) (by decide) (by decide) rfl

/-! ## Claim C6 -/

/-- C6: `insert` against a non-existent collection raises the not-found
error (`ValueError: Collection ... does not exist`, the spec's
`NotFoundError`) and writes no rows — the state is returned unchanged.
The code has no auto-create path. -/
theorem insert_missing_collection_fails
    (s : State) (docs : List Doc) (i k : String)
    (h : getColl s (resolve i k) = none) :
    insert s docs i k = (.error (.notFound (resolve i k)), s) := by
  simp [insert, h]

/-- Witness for C6: inserting into an empty store fails with not-found and
leaves the store empty. -/
theorem insert_missing_collection_fails_witness :
    insert [] [[("id", .vstr "x")]] "idx" "kb1"
      = (.error (.notFound "idx_kb1"), []) :=
  insert_missing_collection_fails [] [[("id", .vstr "x")]] "idx" "kb1" rfl

/-! ## Claim C7 -/

/-- C7: `createIdx` is idempotent.  If the collection was absent and a
first call succeeded, then a second call with identical arguments is a
no-op that cannot raise (it returns before the remote `try` block, so even
an injected remote fault is irrelevant), and the store holds exactly one
collection under the resolved id, carrying the requested schema
`milvusFields vectorSize` — including the `q_{vectorSize}_vec` embedding
field of the requested width. -/
theorem createIdx_idempotent
    (s s' : State) (i k : String) (v : Nat)
    (habs : getColl s (resolve i k) = none)
    (h1 : createIdx s i k v false = .ok s') :
    (∀ fault, createIdx s' i k v fault = .ok s') ∧
    getColl s' (resolve i k) = some { schema := milvusFields v, rows := [] } ∧
    (s'.filter (fun p => p.1 == resolve i k)).length = 1 := by
  have hex : indexExist s i (some k) = false := by
    simp [indexExist, resolveOpt, habs]
  simp only [createIdx, hex, Bool.false_eq_true, if_false, if_neg,
    Except.ok.injEq] at h1
  have hs' : s' = s ++ [(resolve i k, { schema := milvusFields v, rows := [] })] := by
    rw [← h1]
  have hget : getColl s' (resolve i k) =
      some { schema := milvusFields v, rows := [] } := by
    rw [hs', getColl_append_right s _ _ habs]
    simp [getColl]
  refine ⟨?_, hget, ?_⟩
  · intro fault
    have : indexExist s' i (some k) = true := by
      simp [indexExist, resolveOpt, hget]
    simp [createIdx, this]
  · rw [hs', List.filter_append, getColl_none_filter s _ habs]
    simp

/-- Witness for C7 at a concrete first call on the empty store. -/
theorem createIdx_idempotent_witness :
    (∀ fault, createIdx [("idx_kb1", ⟨milvusFields 2, []⟩)] "idx" "kb1" 2 fault
      = .ok [("idx_kb1", ⟨milvusFields 2, []⟩)]) ∧
    getColl [("idx_kb1", ⟨milvusFields 2, []⟩)] (resolve "idx" "kb1")
      = some ⟨milvusFields 2, []⟩ ∧
    (([("idx_kb1", (⟨milvusFields 2, []⟩ : Coll))]).filter
        (fun p => p.1 == resolve "idx" "kb1")).length = 1 :=
  createIdx_idempotent [] _ "idx" "kb1" 2 rfl rfl

/-! ## Claim C4 -/

/-- C4: `delete` against an existing collection with a condition that
contributes no filter clause (no `id` key and no string `kb_id` key — in
particular the empty condition) returns 0 and leaves the store unchanged:
the empty filter is never interpreted as delete-all. -/
theorem delete_empty_filter_deletes_nothing
    (s : State) (cond : Doc) (i k : String) (coll : Coll)
    (hcoll : getColl s (resolve i k) = some coll)
    (hid : dictGet cond "id" = none)
    (hkb : kbClause cond = none) :
    delete s cond i k = (0, s) := by
  simp [delete, hcoll, idClause, hid, hkb]

/-- Witness for C4: deleting with the empty condition from a one-row
collection returns 0 and keeps the row. -/
theorem delete_empty_filter_deletes_nothing_witness :
    delete [("idx_kb1", ⟨milvusFields 2, [[("id", .vstr "r1")]]⟩)] [] "idx" "kb1"
      = (0, [("idx_kb1", ⟨milvusFields 2, [[("id", .vstr "r1")]]⟩)]) :=
  delete_empty_filter_deletes_nothing _ [] "idx" "kb1"
    ⟨milvusFields 2, [[("id", .vstr "r1")]]⟩ rfl rfl rfl

/-! ## Claim C3 -/

/-- C3: `update` returns `false` and leaves the store unchanged whenever the
condition carries no string `id`, or the target collection is absent, or no
row of the target collection matches the id (and optional `kb_id`) filter —
no document materialises and none is deleted. -/
theorem update_miss_returns_false_unchanged
    (s : State) (cond nv : Doc) (i k : String)
    (h : (¬ ∃ d, dictGet cond "id" = some (.vstr d)) ∨
         getColl s (resolve i k) = none ∨
         (∀ coll d, getColl s (resolve i k) = some coll →
            dictGet cond "id" = some (.vstr d) →
            coll.rows.filter (queryMatch d (kbCondOf cond)) = [])) :
    update s cond nv i k = (false, s) := by
  simp only [update]
  cases hcoll : getColl s (resolve i k) with
  | none => rfl
  | some coll =>
    cases hid : dictGet cond "id" with
    | none => rfl
    | some v =>
      cases v with
      | vint n => rfl
      | vlist l => rfl
      | vstr d =>
        rcases h with h | h | h
        · exact absurd ⟨d, hid⟩ h
        · rw [hcoll] at h; cases h
        · have hfil := h coll d hcoll hid
          simp [hfil]

/-- Witness for C3: an update against a one-row collection whose condition
names a different id returns `false` and leaves the row in place. -/
theorem update_miss_returns_false_unchanged_witness :
    update [("idx_kb1", ⟨milvusFields 2, [[("id", .vstr "r1")]]⟩)]
      [("id", .vstr "other")] [("content_ltks", .vstr "new")] "idx" "kb1"
      = (false, [("idx_kb1", ⟨milvusFields 2, [[("id", .vstr "r1")]]⟩)]) :=
  update_miss_returns_false_unchanged _ _ _ "idx" "kb1"
    (Or.inr (Or.inr (fun coll d hcoll hid => by
      have hc := Option.some.inj hcoll
      have hd := Value.vstr.inj (Option.some.inj hid)
      subst hc
      subst hd
      rfl)))

/-! ## Claim C10 -/

/-- C10: `getTotal` never raises.  Its codomain is `Nat` and every remote
call is wrapped: a failing `has_collection` degrades to `false` inside
`indexExist`, and an absent collection or a failing `flush`/`num_entities`
makes the outer `try` return 0.  With `knowledgebaseId = None` the name
argument is used as the full collection name (`resolveOpt name none =
name`). -/
theorem getTotal_absent_or_failure_zero
    (hasCollection : String → Except Unit Bool)
    (flush : String → Except Unit Unit)
    (numEntities : String → Except Unit Nat)
    (name : String) (kb : Option String) :
    resolveOpt name none = name ∧
    ((hasCollection (resolveOpt name kb) = .ok false ∨
      hasCollection (resolveOpt name kb) = .error () ∨
      flush (resolveOpt name kb) = .error () ∨
      numEntities (resolveOpt name kb) = .error ()) →
      getTotal hasCollection flush numEntities name kb = 0) := by
  refine ⟨rfl, ?_⟩
  intro h
  unfold getTotal
  rcases h with h | h | h | h
  · simp [h]
  · simp [h]
  · cases hc : hasCollection (resolveOpt name kb) with
    | ok b =>
      cases b with
      | false => simp [hc]
      | true => simp [hc, h]
    | error e => simp [hc]
  · cases hc : hasCollection (resolveOpt name kb) with
    | ok b =>
      cases b with
      | false => simp [hc]
      | true =>
        cases hf : flush (resolveOpt name kb) with
        | ok u => simp [hc, hf, h]
        | error e => simp [hc, hf]
    | error e => simp [hc]

/-- Witness for C10: an absent collection, queried by full collection name
(`knowledgebaseId = None`), yields 0. -/
theorem getTotal_absent_or_failure_zero_witness :
    resolveOpt "coll" none = "coll" ∧
    getTotal (fun _ => .ok false) (fun _ => .ok ()) (fun _ => .ok 7)
      "coll" none = 0 :=
  ⟨(getTotal_absent_or_failure_zero (fun _ => .ok false) (fun _ => .ok ())
      (fun _ => .ok 7) "coll" none).1,
   (getTotal_absent_or_failure_zero (fun _ => .ok false) (fun _ => .ok ())
      (fun _ => .ok 7) "coll" none).2 (Or.inl rfl)⟩

/-! ## Claims C8 and C5: search -/

theorem searchKb_foldl_none (ann : AnnOracle) (s : State) (iname : String)
    (sf : List String) (cond : Doc) (exprs : List MatchExpr) (off lim : Nat) :
    ∀ (kbs : List String) (acc : List Doc),
      (∀ kb ∈ kbs, getColl s (resolve iname kb) = none) →
      kbs.foldl (searchKb ann s iname sf cond exprs off lim) acc = acc := by
  intro kbs
  induction kbs with
  | nil => intro acc _; rfl
  | cons kb rest ih =>
    intro acc h
    rw [List.foldl_cons]
    have h1 : searchKb ann s iname sf cond exprs off lim acc kb = acc := by
      simp [searchKb, h kb (List.mem_cons_self _ _)]
    rw [h1]
    exact ih acc (fun kb2 hm => h kb2 (List.mem_cons_of_mem _ hm))

/-- C8: a `search` whose knowledge bases all resolve to non-existent
collections returns the empty result list inside `Except.ok` — every
knowledge base is skipped with a warning and nothing is raised. -/
theorem search_nonexistent_returns_empty
    (ann : AnnOracle) (s : State) (sf : List String) (cond : Doc)
    (exprs : List MatchExpr) (off lim : Nat) (iname : String)
    (restNames : List String) (kbIds : List String)
    (h : ∀ kb ∈ kbIds, getColl s (resolve iname kb) = none) :
    search ann s sf cond exprs off lim (iname :: restNames) kbIds = .ok [] := by
  cases kbIds with
  | nil => rfl
  | cons kb rest =>
    simp only [search, List.isEmpty_cons, Bool.false_eq_true, if_false]
    rw [searchKb_foldl_none ann s iname sf cond exprs off lim (kb :: rest) [] h]

/-- Witness for C8: searching the empty store for an existing-looking pair
returns `Except.ok []`. -/
theorem search_nonexistent_returns_empty_witness :
    search (fun _ _ _ _ _ => []) [] ["content_ltks"] [] [.dense [0]]
      0 10 ["idx"] ["kb1"] = .ok [] :=
  search_nonexistent_returns_empty (fun _ _ _ _ _ => []) [] ["content_ltks"]
    [] [.dense [0]] 0 10 "idx" [] ["kb1"] (fun _ _ => rfl)

/-- The rows one match expression contributes for one collection: nothing
for a text expression or a vector-less schema; for a dense expression, the
engine is asked for the `limit + offset` nearest rows, the client-side
slice keeps the rows at positions `offset … offset + limit - 1`, and each
kept hit is annotated with its distance under `score`. -/
def denseContribution (ann : AnnOracle) (collectionName : String)
    (schema : List FieldDef) (filterExpr : String) (outFields : List String)
    (offset limit : Nat) (e : MatchExpr) : List Doc :=
  match e with
  | .text _ _ => []
  | .dense v =>
    match vectorFieldName schema with
    | none => []
    | some vf =>
      (((ann collectionName vf v filterExpr outFields).take (limit + offset)).drop
        offset).map annotate

/-- The rows one knowledge base contributes: nothing when its collection
does not exist, otherwise the concatenation over all match expressions. -/
def kbContribution (ann : AnnOracle) (s : State) (iname : String)
    (sf : List String) (cond : Doc) (exprs : List MatchExpr)
    (off lim : Nat) (kb : String) : List Doc :=
  match getColl s (resolve iname kb) with
  | none => []
  | some coll =>
    exprs.flatMap (denseContribution ann (resolve iname kb) coll.schema
      (buildFilterExpr cond) (outputFields sf coll.schema) off lim)

theorem searchOne_eq (ann : AnnOracle) (schema : List FieldDef)
    (cname fexpr : String) (ofields : List String) (off lim : Nat)
    (acc : List Doc) (e : MatchExpr) :
    searchOne ann schema cname fexpr ofields off lim acc e =
      acc ++ denseContribution ann cname schema fexpr ofields off lim e := by
  cases e with
  | text f t => simp [searchOne, denseContribution]
  | dense v =>
    cases hvf : vectorFieldName schema with
    | none => simp [searchOne, denseContribution, hvf]
    | some vf =>
      simp only [searchOne, denseContribution, hvf, pySlice, List.take_take]
      rw [show min (off + lim) (lim + off) = lim + off by
        rw [Nat.add_comm off lim, Nat.min_self]]

theorem searchOne_foldl (ann : AnnOracle) (schema : List FieldDef)
    (cname fexpr : String) (ofields : List String) (off lim : Nat) :
    ∀ (exprs : List MatchExpr) (acc : List Doc),
      exprs.foldl (searchOne ann schema cname fexpr ofields off lim) acc =
        acc ++ exprs.flatMap (denseContribution ann cname schema fexpr ofields off lim) := by
  intro exprs
  induction exprs with
  | nil => intro acc; simp
  | cons e rest ih =>
    intro acc
    rw [List.foldl_cons, searchOne_eq, ih, List.flatMap_cons, List.append_assoc]

theorem searchKb_eq (ann : AnnOracle) (s : State) (iname : String)
    (sf : List String) (cond : Doc) (exprs : List MatchExpr) (off lim : Nat)
    (acc : List Doc) (kb : String) :
    searchKb ann s iname sf cond exprs off lim acc kb =
      acc ++ kbContribution ann s iname sf cond exprs off lim kb := by
  simp only [searchKb, kbContribution]
  cases hcoll : getColl s (resolve iname kb) with
  | none => simp
  | some coll => exact searchOne_foldl ann coll.schema (resolve iname kb) (buildFilterExpr cond) (outputFields sf coll.schema) off lim exprs acc

theorem searchKb_foldl (ann : AnnOracle) (s : State) (iname : String)
    (sf : List String) (cond : Doc) (exprs : List MatchExpr) (off lim : Nat) :
    ∀ (kbs : List String) (acc : List Doc),
      kbs.foldl (searchKb ann s iname sf cond exprs off lim) acc =
        acc ++ kbs.flatMap (kbContribution ann s iname sf cond exprs off lim) := by
  intro kbs
  induction kbs with
  | nil => intro acc; simp
  | cons kb rest ih =>
    intro acc
    rw [List.foldl_cons, searchKb_eq, ih, List.flatMap_cons, List.append_assoc]

/-- C5: `search` over-fetches and slices.  For every offset `off` and limit
`lim`, the result equals the concatenation, across knowledge bases whose
collections exist and across dense match expressions, of
`denseContribution`: the engine request asks for `lim + off` nearest rows
(`limit=limit + offset` in the call), the `hits[offset : offset + limit]`
slice keeps positions `off … off + lim - 1`, and each kept row carries its
distance under the `score` field (`annotate`). -/
theorem search_overfetch_slice_score (ann : AnnOracle) (s : State)
    (sf : List String) (cond : Doc) (exprs : List MatchExpr) (off lim : Nat)
    (iname : String) (restNames kbIds : List String) :
    search ann s sf cond exprs off lim (iname :: restNames) kbIds =
      .ok (kbIds.flatMap (kbContribution ann s iname sf cond exprs off lim)) := by
  cases kbIds with
  | nil => rfl
  | cons kb rest =>
    simp only [search, List.isEmpty_cons, Bool.false_eq_true, if_false]
    rw [searchKb_foldl]
    simp

/-! ## Claim C9: merge semantics of `update` -/

theorem isStr_eq (v : Value) (s : String) (h : v.isStr s = true) :
    v = .vstr s := by
  cases v with
  | vstr t => simp only [Value.isStr, decide_eq_true_eq] at h; rw [h]
  | vint n => simp [Value.isStr] at h
  | vlist l => simp [Value.isStr] at h

theorem projRow_cons_none (r : Doc) (g : String) (gs : List String)
    (hg : dictGet r g = none) :
    projRow (g :: gs) r = projRow gs r := by
  simp [projRow, List.filterMap_cons, hg]

theorem projRow_cons_some (r : Doc) (g : String) (gs : List String)
    (v : Value) (hg : dictGet r g = some v) :
    projRow (g :: gs) r = (g, v) :: projRow gs r := by
  simp [projRow, List.filterMap_cons, hg]

theorem dictGet_projRow_not_mem (r : Doc) (f : String) :
    ∀ fields : List String, f ∉ fields →
      dictGet (projRow fields r) f = none := by
  intro fields
  induction fields with
  | nil => intro _; rfl
  | cons g gs ih =>
    intro hf
    have hfg : f ≠ g := fun he => hf (he ▸ List.mem_cons_self g gs)
    have hgs : f ∉ gs := fun hm => hf (List.mem_cons_of_mem _ hm)
    cases hg : dictGet r g with
    | none => rw [projRow_cons_none r g gs hg]; exact ih hgs
    | some v =>
      rw [projRow_cons_some r g gs v hg]
      simp only [dictGet, if_neg (Ne.symm hfg)]
      exact ih hgs

theorem dictGet_projRow_mem (r : Doc) (f : String) :
    ∀ fields : List String, f ∈ fields →
      dictGet (projRow fields r) f = dictGet r f := by
  intro fields
  induction fields with
  | nil => intro h; cases h
  | cons g gs ih =>
    intro hf
    by_cases hfg : f = g
    · subst hfg
      cases hg : dictGet r f with
      | none =>
        rw [projRow_cons_none r f gs hg]
        by_cases hmem : f ∈ gs
        · rw [ih hmem]; exact hg
        · rw [dictGet_projRow_not_mem r f gs hmem]
      | some v =>
        rw [projRow_cons_some r f gs v hg]
        simp [dictGet, hg]
    · have hmem : f ∈ gs := by
        cases List.mem_cons.1 hf with
        | inl h => exact absurd h hfg
        | inr h => exact h
      cases hg : dictGet r g with
      | none => rw [projRow_cons_none r g gs hg]; exact ih hmem
      | some v =>
        rw [projRow_cons_some r g gs v hg]
        simp only [dictGet, if_neg (Ne.symm hfg)]
        exact ih hmem

/-- A merge-loop iteration leaves the accumulator unchanged or assigns
exactly one key: the vector field, a non-`id` key of `newValue`, or `id`
with the unchanged value. -/
theorem mergeStep_cases (docId : String) (vecField : Option String)
    (ev : Option Value) (acc : Doc) (kv : String × Value) :
    mergeStep docId vecField ev acc kv = acc ∨
    (∃ w, vecField = some w ∧
      ∃ v, mergeStep docId vecField ev acc kv = dictSet acc w v) ∨
    (kv.1 ≠ "id" ∧ mergeStep docId vecField ev acc kv = dictSet acc kv.1 kv.2) ∨
    (kv.1 = "id" ∧ kv.2 = .vstr docId ∧
      mergeStep docId vecField ev acc kv = dictSet acc "id" (.vstr docId)) := by
  obtain ⟨k0, v0⟩ := kv
  simp only [mergeStep]
  by_cases hskip : k0 = "id" ∧ v0.isStr docId = false
  · left; rw [if_pos hskip]
  · rw [if_neg hskip]
    have hsid : k0 = "id" → v0 = .vstr docId := by
      intro hk
      by_cases hs : v0.isStr docId = true
      · exact isStr_eq v0 docId hs
      · exact absurd ⟨hk, by simpa using hs⟩ hskip
    cases ev with
    | some e =>
      cases vecField with
      | some vf =>
        dsimp only
        by_cases h1 : k0 = vf
        · right; left; exact ⟨vf, rfl, e, by rw [if_pos h1]⟩
        · by_cases h2 : k0 = "embedding"
          · right; left
            exact ⟨vf, rfl, v0, by rw [if_neg h1, if_pos h2]⟩
          · by_cases hk : k0 = "id"
            · right; right; right
              refine ⟨hk, hsid hk, ?_⟩
              rw [if_neg h1, if_neg h2, hk, hsid hk]
            · right; right; left
              exact ⟨hk, by rw [if_neg h1, if_neg h2]⟩
      | none =>
        dsimp only
        by_cases hk : k0 = "id"
        · right; right; right
          exact ⟨hk, hsid hk, by rw [hk, hsid hk]⟩
        · right; right; left; exact ⟨hk, rfl⟩
    | none =>
      cases vecField with
      | some vf =>
        dsimp only
        by_cases h2 : k0 = "embedding"
        · right; left; exact ⟨vf, rfl, v0, by rw [if_pos h2]⟩
        · by_cases hk : k0 = "id"
          · right; right; right
            exact ⟨hk, hsid hk, by rw [if_neg h2, hk, hsid hk]⟩
          · right; right; left; exact ⟨hk, by rw [if_neg h2]⟩
      | none =>
        dsimp only
        by_cases hk : k0 = "id"
        · right; right; right
          exact ⟨hk, hsid hk, by rw [hk, hsid hk]⟩
        · right; right; left; exact ⟨hk, rfl⟩

/-- The merge loop never loses the primary id of the fetched row. -/
theorem merge_id_invariant (docId : String) (vecField : Option String)
    (ev : Option Value) (hvf : vecField ≠ some "id") :
    ∀ (l : List (String × Value)) (acc : Doc),
      dictGet acc "id" = some (.vstr docId) →
      dictGet (l.foldl (mergeStep docId vecField ev) acc) "id" =
        some (.vstr docId) := by
  intro l
  induction l with
  | nil => intro acc h; exact h
  | cons kv rest ih =>
    intro acc h
    rw [List.foldl_cons]
    apply ih
    rcases mergeStep_cases docId vecField ev acc kv with hc | ⟨w, hw, v, hc⟩ | ⟨hk, hc⟩ | ⟨_, _, hc⟩
    · rw [hc]; exact h
    · rw [hc, dictGet_dictSet_ne]
      · exact h
      · intro hwid
        exact hvf (hw.trans (by rw [hwid]))
    · rw [hc, dictGet_dictSet_ne _ _ _ _ hk]; exact h
    · rw [hc, dictGet_dictSet_self]

/-- Keys that no merge iteration writes keep their accumulator value. -/
theorem merge_untouched (docId : String) (vecField : Option String)
    (ev : Option Value) :
    ∀ (l : List (String × Value)) (acc : Doc) (kk : String),
      (∀ p ∈ l, p.1 ≠ kk) → vecField ≠ some kk →
      dictGet (l.foldl (mergeStep docId vecField ev) acc) kk = dictGet acc kk := by
  intro l
  induction l with
  | nil => intro acc kk _ _; rfl
  | cons kv rest ih =>
    intro acc kk hl hv
    rw [List.foldl_cons]
    rw [ih _ kk (fun p hp => hl p (List.mem_cons_of_mem _ hp)) hv]
    rcases mergeStep_cases docId vecField ev acc kv with hc | ⟨w, hw, v, hc⟩ | ⟨_, hc⟩ | ⟨hk, _, hc⟩
    · rw [hc]
    · rw [hc, dictGet_dictSet_ne]
      intro hwk
      exact hv (hw.trans (by rw [hwk]))
    · rw [hc, dictGet_dictSet_ne]
      exact hl kv (List.mem_cons_self _ _)
    · rw [hc, dictGet_dictSet_ne]
      rw [← hk]
      exact hl kv (List.mem_cons_self _ _)

/-- A plain `newValue` key — not `id`, not `embedding`, not the vector
field — is written verbatim by its merge iteration. -/
theorem mergeStep_plain (docId : String) (vecField : Option String)
    (ev : Option Value) (acc : Doc) (kv : String × Value)
    (h1 : kv.1 ≠ "id") (h2 : kv.1 ≠ "embedding")
    (h3 : vecField ≠ some kv.1) :
    mergeStep docId vecField ev acc kv = dictSet acc kv.1 kv.2 := by
  unfold mergeStep
  rw [if_neg (fun hc => h1 hc.1)]
  cases ev with
  | some e =>
    cases vecField with
    | some vf =>
      have hvf : kv.1 ≠ vf := fun he => h3 (by rw [he])
      simp [hvf, h2]
    | none => rfl
  | none =>
    cases vecField with
    | some vf => simp [h2]
    | none => rfl

/-- Every plain key of `newValue` overwrites the fetched row's field. -/
theorem merge_overwrite (docId : String) (vecField : Option String)
    (ev : Option Value) :
    ∀ (l : List (String × Value)) (acc : Doc) (kk : String) (vv : Value),
      l.Pairwise (fun a b => a.1 ≠ b.1) →
      (kk, vv) ∈ l → kk ≠ "id" → kk ≠ "embedding" → vecField ≠ some kk →
      dictGet (l.foldl (mergeStep docId vecField ev) acc) kk = some vv := by
  intro l
  induction l with
  | nil => intro acc kk vv _ hm; cases hm
  | cons kv rest ih =>
    intro acc kk vv hnd hm h1 h2 h3
    rw [List.foldl_cons]
    rcases List.mem_cons.1 hm with he | hmem
    · have hkv1 : kv.1 = kk := by rw [← he]
      have hkv2 : kv.2 = vv := by rw [← he]
      rw [mergeStep_plain docId vecField ev acc kv (hkv1 ▸ h1) (hkv1 ▸ h2) (hkv1 ▸ h3)]
      rw [merge_untouched docId vecField ev rest _ kk
        (fun p hp => fun hpk => ((List.pairwise_cons.1 hnd).1 p hp) (hkv1.trans hpk.symm)) h3]
      rw [hkv1, hkv2, dictGet_dictSet_self]
    · exact ih _ kk vv (List.pairwise_cons.1 hnd).2 hmem h1 h2 h3

theorem dictGet_ensureKb_ne (d o : Doc) (k kk : String) (h : kk ≠ "kb_id") :
    dictGet (ensureKb d o k) kk = dictGet d kk := by
  unfold ensureKb
  by_cases hh : dictHas d "kb_id"
  · simp [hh]
  · simp only [hh, Bool.false_eq_true, if_false]
    exact dictGet_dictSet_ne _ _ _ _ (Ne.symm h)

theorem dictGet_ensureKb_of_some (d o : Doc) (k kk : String) (v : Value)
    (h : dictGet d kk = some v) :
    dictGet (ensureKb d o k) kk = some v := by
  by_cases hkk : kk = "kb_id"
  · subst hkk
    unfold ensureKb
    have hhas : dictHas d "kb_id" = true := by simp [dictHas, h]
    simp [hhas, h]
  · rw [dictGet_ensureKb_ne _ _ _ _ hkk]; exact h

/-- C9: a successful `update` never lets `newValue` rename the primary id.
The re-inserted merged row keeps `id = condition["id"]` even when
`newValue` holds an `id` key with a different value (that key is skipped
with a warning), while every other key of `newValue` — apart from the
`embedding`/vector-field keys, which the insert-style encoding renames onto
the schema's vector field — overwrites the fetched row's field. -/
theorem update_keeps_id_and_overwrites
    (s : State) (cond nv : Doc) (i k : String) (coll : Coll) (docId : String)
    (row : Doc) (rest : List Doc)
    (hcoll : getColl s (resolve i k) = some coll)
    (hid : dictGet cond "id" = some (.vstr docId))
    (hfilter : coll.rows.filter (queryMatch docId (kbCondOf cond)) = row :: rest)
    (hvf : vectorFieldName coll.schema ≠ some "id")
    (hidfield : "id" ∈ coll.schema.map (fun f => f.name))
    (hnodup : nv.Pairwise (fun a b => a.1 ≠ b.1)) :
    ∃ merged,
      update s cond nv i k =
        (true, setColl s (resolve i k)
          ⟨coll.schema,
            coll.rows.filter (fun r => !(queryMatch docId (kbCondOf cond) r))
              ++ [merged]⟩) ∧
      dictGet merged "id" = some (.vstr docId) ∧
      (∀ kk vv, (kk, vv) ∈ nv → kk ≠ "id" → kk ≠ "embedding" →
        vectorFieldName coll.schema ≠ some kk →
        dictGet merged kk = some vv) := by
  have hrowmatch : queryMatch docId (kbCondOf cond) row = true := by
    have hmem : row ∈ coll.rows.filter (queryMatch docId (kbCondOf cond)) := by
      rw [hfilter]; exact List.mem_cons_self _ _
    exact (List.mem_filter.1 hmem).2
  have hrowid : dictGet row "id" = some (.vstr docId) := by
    unfold queryMatch at hrowmatch
    rw [Bool.and_eq_true] at hrowmatch
    obtain ⟨hivm, _⟩ := hrowmatch
    cases hg : dictGet row "id" with
    | none => rw [hg] at hivm; cases hivm
    | some v =>
      rw [hg] at hivm
      rw [isStr_eq v docId hivm]
  have hprojid :
      dictGet (projRow (coll.schema.map (fun f => f.name)) row) "id" =
        some (.vstr docId) := by
    rw [dictGet_projRow_mem row "id" _ hidfield, hrowid]
  refine ⟨ensureKb
      (mergeNewValues (projRow (coll.schema.map (fun f => f.name)) row) docId nv
        (vectorFieldName coll.schema))
      (projRow (coll.schema.map (fun f => f.name)) row) k, ?_, ?_, ?_⟩
  · simp only [update, hcoll, hid, hfilter, List.head?_cons]
  · rw [dictGet_ensureKb_ne _ _ _ _ (by decide)]
    exact merge_id_invariant docId (vectorFieldName coll.schema)
      (dictGet nv "embedding") hvf nv _ hprojid
  · intro kk vv hm h1 h2 h3
    exact dictGet_ensureKb_of_some _ _ _ _ _
      (merge_overwrite docId (vectorFieldName coll.schema)
        (dictGet nv "embedding") nv _ kk vv hnodup hm h1 h2 h3)

/-- Concrete stored row for the C9 witness. -/
def wRow : Doc :=
  [("id", .vstr "r1"), ("kb_id", .vstr "kb1"), ("content_ltks", .vstr "old")]

/-- Concrete one-collection store for the C9 witness. -/
def wState : State := [("idx_kb1", ⟨milvusFields 2, [wRow]⟩)]

/-- Concrete `newValue` for the C9 witness, attempting to rename the id. -/
def wNv : Doc := [("id", .vstr "evil"), ("content_ltks", .vstr "new")]

/-- Witness for C9: a successful update whose `newValue` tries to rename
the id keeps `id = "r1"` and overwrites `content_ltks`. -/
theorem update_keeps_id_and_overwrites_witness :
    ∃ merged,
      update wState [("id", .vstr "r1")] wNv "idx" "kb1" =
        (true, setColl wState (resolve "idx" "kb1")
          ⟨milvusFields 2,
            [wRow].filter
              (fun r => !(queryMatch "r1" (kbCondOf [("id", .vstr "r1")]) r))
              ++ [merged]⟩) ∧
      dictGet merged "id" = some (.vstr "r1") ∧
      (∀ kk vv, (kk, vv) ∈ wNv → kk ≠ "id" → kk ≠ "embedding" →
        vectorFieldName (milvusFields 2) ≠ some kk →
        dictGet merged kk = some vv) :=
  update_keeps_id_and_overwrites wState [("id", .vstr "r1")] wNv "idx" "kb1"
    ⟨milvusFields 2, [wRow]⟩ "r1" wRow [] rfl rfl rfl
    (by decide) (by decide) (by decide)

/-! ## Claim C1: codec round trip -/

theorem joinSep_cons₂ (sep x y : List Char) (l : List (List Char)) :
    joinSep sep (x :: y :: l) = x ++ sep ++ joinSep sep (y :: l) := rfl

theorem joinSep_ne_nil (sep : List Char) :
    ∀ l : List (List Char), (∀ x ∈ l, x ≠ []) → l ≠ [] →
      joinSep sep l ≠ [] := by
  intro l hx hl
  cases l with
  | nil => exact absurd rfl hl
  | cons x rest =>
    cases rest with
    | nil => exact hx x (List.mem_cons_self _ _)
    | cons y rest2 =>
      rw [joinSep_cons₂]
      intro hh
      rcases List.append_eq_nil.1 hh with ⟨hxs, _⟩
      rcases List.append_eq_nil.1 hxs with ⟨hx0, _⟩
      exact hx x (List.mem_cons_self _ _) hx0

theorem splitChar_no_sep (sep : Char) :
    ∀ x : List Char, sep ∉ x → ∀ acc,
      splitChar sep x acc = [acc.reverse ++ x] := by
  intro x
  induction x with
  | nil => intro _ acc; simp [splitChar]
  | cons c cs ih =>
    intro h acc
    have hc : c ≠ sep := fun he => h (he ▸ List.mem_cons_self c cs)
    rw [show splitChar sep (c :: cs) acc
        = if c = sep then acc.reverse :: splitChar sep cs []
          else splitChar sep cs (c :: acc) from rfl,
      if_neg hc, ih (fun hm => h (List.mem_cons_of_mem _ hm)) (c :: acc)]
    simp

theorem splitChar_boundary (sep : Char) :
    ∀ x : List Char, sep ∉ x → ∀ acc rest,
      splitChar sep (x ++ sep :: rest) acc =
        (acc.reverse ++ x) :: splitChar sep rest [] := by
  intro x
  induction x with
  | nil =>
    intro _ acc rest
    rw [List.nil_append,
      show splitChar sep (sep :: rest) acc
        = if sep = sep then acc.reverse :: splitChar sep rest []
          else splitChar sep rest (sep :: acc) from rfl,
      if_pos rfl]
    simp
  | cons c cs ih =>
    intro h acc rest
    have hc : c ≠ sep := fun he => h (he ▸ List.mem_cons_self c cs)
    rw [List.cons_append,
      show splitChar sep (c :: (cs ++ sep :: rest)) acc
        = if c = sep then acc.reverse :: splitChar sep (cs ++ sep :: rest) []
          else splitChar sep (cs ++ sep :: rest) (c :: acc) from rfl,
      if_neg hc, ih (fun hm => h (List.mem_cons_of_mem _ hm)) (c :: acc) rest]
    simp

theorem splitChar_joinSep (sep : Char) :
    ∀ l : List (List Char), l ≠ [] → (∀ x ∈ l, sep ∉ x) →
      splitChar sep (joinSep [sep] l) [] = l := by
  intro l
  induction l with
  | nil => intro h _; exact absurd rfl h
  | cons x rest ih =>
    intro _ hsep
    cases rest with
    | nil =>
      show splitChar sep x [] = [x]
      rw [splitChar_no_sep sep x (hsep x (List.mem_cons_self _ _)) []]
      simp
    | cons y rest2 =>
      rw [joinSep_cons₂, List.append_assoc]
      show splitChar sep (x ++ sep :: joinSep [sep] (y :: rest2)) [] = _
      rw [splitChar_boundary sep x (hsep x (List.mem_cons_self _ _)) []]
      rw [ih (by simp) (fun z hz => hsep z (List.mem_cons_of_mem _ hz))]
      simp

theorem splitKW_cons_ne (c : Char) (cs : List Char) (acc : List Char)
    (hc : c ≠ '#') : splitKW (c :: cs) acc = splitKW cs (c :: acc) := by
  cases cs with
  | nil => rfl
  | cons c2 cs2 =>
    cases cs2 with
    | nil => rfl
    | cons c3 rest =>
      rw [show splitKW (c :: c2 :: c3 :: rest) acc
          = if c = '#' ∧ c2 = '#' ∧ c3 = '#' then acc.reverse :: splitKW rest []
            else splitKW (c2 :: c3 :: rest) (c :: acc) from rfl,
        if_neg (fun hh => hc hh.1)]

theorem splitKW_hash3 (rest acc : List Char) :
    splitKW ('#' :: '#' :: '#' :: rest) acc = acc.reverse :: splitKW rest [] := by
  rw [show splitKW ('#' :: '#' :: '#' :: rest) acc
      = if ('#' : Char) = '#' ∧ ('#' : Char) = '#' ∧ ('#' : Char) = '#' then
          acc.reverse :: splitKW rest []
        else splitKW ('#' :: '#' :: rest) ('#' :: acc) from rfl,
    if_pos ⟨rfl, rfl, rfl⟩]

theorem splitKW_no_hash :
    ∀ x : List Char, '#' ∉ x → ∀ acc,
      splitKW x acc = [acc.reverse ++ x] := by
  intro x
  induction x with
  | nil => intro _ acc; simp [splitKW]
  | cons c cs ih =>
    intro h acc
    have hc : c ≠ '#' := fun he => h (he ▸ List.mem_cons_self c cs)
    rw [splitKW_cons_ne c cs acc hc,
      ih (fun hm => h (List.mem_cons_of_mem _ hm)) (c :: acc)]
    simp

theorem splitKW_boundary :
    ∀ x : List Char, '#' ∉ x → ∀ acc rest,
      splitKW (x ++ '#' :: '#' :: '#' :: rest) acc =
        (acc.reverse ++ x) :: splitKW rest [] := by
  intro x
  induction x with
  | nil => intro _ acc rest; rw [List.nil_append, splitKW_hash3]; simp
  | cons c cs ih =>
    intro h acc rest
    have hc : c ≠ '#' := fun he => h (he ▸ List.mem_cons_self c cs)
    rw [List.cons_append, splitKW_cons_ne c _ acc hc,
      ih (fun hm => h (List.mem_cons_of_mem _ hm)) (c :: acc) rest]
    simp

theorem splitKW_joinSep :
    ∀ l : List (List Char), l ≠ [] → (∀ x ∈ l, '#' ∉ x) →
      splitKW (joinSep sepKW l) [] = l := by
  intro l
  induction l with
  | nil => intro h _; exact absurd rfl h
  | cons x rest ih =>
    intro _ hsep
    cases rest with
    | nil =>
      show splitKW x [] = [x]
      rw [splitKW_no_hash x (hsep x (List.mem_cons_self _ _)) []]
      simp
    | cons y rest2 =>
      rw [joinSep_cons₂, List.append_assoc]
      show splitKW (x ++ '#' :: '#' :: '#' :: joinSep sepKW (y :: rest2)) [] = _
      rw [splitKW_boundary x (hsep x (List.mem_cons_self _ _)) []]
      rw [ih (by simp) (fun z hz => hsep z (List.mem_cons_of_mem _ hz))]
      simp

theorem decode_encode_kws (l : List (List Char))
    (h : ∀ x ∈ l, x ≠ [] ∧ '#' ∉ x) :
    decodeKws (encodeVal (.kws l)) = .kws l := by
  unfold decodeKws encodeVal
  cases l with
  | nil => rfl
  | cons x rest =>
    have hne : joinSep sepKW (x :: rest) ≠ [] :=
      joinSep_ne_nil sepKW (x :: rest) (fun z hz => (h z hz).1) (by simp)
    rw [if_neg hne, splitKW_joinSep (x :: rest) (by simp) (fun z hz => (h z hz).2)]

/-! Hexadecimal block machinery. -/

theorem length_hexDigits : ∀ w n, (hexDigits w n).length = w := by
  intro w
  induction w with
  | zero => intro n; rfl
  | succ w ih => intro n; simp [hexDigits, ih]

theorem hexDigits_lt : ∀ w n d, d ∈ hexDigits w n → d < 16 := by
  intro w
  induction w with
  | zero => intro n d hd; cases hd
  | succ w ih =>
    intro n d hd
    rcases List.mem_append.1 hd with hd | hd
    · exact ih (n / 16) d hd
    · rw [List.mem_singleton.1 hd]
      exact Nat.mod_lt _ (by norm_num)

theorem parseHexDigits_append (ds : List Nat) (d : Nat) :
    parseHexDigits (ds ++ [d]) = parseHexDigits ds * 16 + d := by
  simp [parseHexDigits, List.foldl_append]

theorem parseHexDigits_hexDigits : ∀ w n, n < 16 ^ w →
    parseHexDigits (hexDigits w n) = n := by
  intro w
  induction w with
  | zero =>
    intro n hn
    have : n = 0 := Nat.lt_one_iff.1 (by simpa using hn)
    simp [this, hexDigits, parseHexDigits]
  | succ w ih =>
    intro n hn
    have hdiv : n / 16 < 16 ^ w := by
      rw [Nat.div_lt_iff_lt_mul (by norm_num : 0 < 16)]
      calc n < 16 ^ (w + 1) := hn
        _ = 16 ^ w * 16 := by rw [pow_succ]
    rw [show hexDigits (w + 1) n = hexDigits w (n / 16) ++ [n % 16] from rfl,
      parseHexDigits_append, ih (n / 16) hdiv]
    have hmod := Nat.div_add_mod n 16
    omega

theorem hexCharVal_hexChar : ∀ d, d < 16 → hexCharVal (hexChar d) = some d := by
  decide

theorem hexChar_not_special :
    ∀ d, d < 16 → hexChar d ≠ '_' ∧ hexChar d ≠ ';' ∧ hexChar d ≠ ':' := by
  decide

theorem mapM_hexCharVal :
    ∀ ds : List Nat, (∀ d ∈ ds, d < 16) →
      (ds.map hexChar).mapM hexCharVal = some ds := by
  intro ds
  induction ds with
  | nil => intro _; rfl
  | cons d rest ih =>
    intro h
    rw [List.map_cons, List.mapM_cons,
      hexCharVal_hexChar d (h d (List.mem_cons_self _ _)),
      ih (fun e he => h e (List.mem_cons_of_mem _ he))]
    rfl

theorem parseHex8_hex8 (n : Nat) (h : n < 16 ^ 8) :
    parseHex8 (hex8 n) = some n := by
  unfold parseHex8 hex8
  have hlen : ((hexDigits 8 n).map hexChar).length = 8 := by
    rw [List.length_map, length_hexDigits]
  rw [if_pos hlen, mapM_hexCharVal _ (fun d hd => hexDigits_lt 8 n d hd)]
  simp [parseHexDigits_hexDigits 8 n h]

theorem mem_hex8 (c : Char) (n : Nat) (hc : c ∈ hex8 n) :
    c ≠ '_' ∧ c ≠ ';' ∧ c ≠ ':' := by
  unfold hex8 at hc
  obtain ⟨d, hd, rfl⟩ := List.mem_map.1 hc
  exact hexChar_not_special d (hexDigits_lt 8 n d hd)

theorem hex8_ne_nil (n : Nat) : hex8 n ≠ [] := by
  unfold hex8
  intro h
  have := congrArg List.length h
  simp [length_hexDigits] at this

theorem mapM_parseHex8 :
    ∀ ns : List Nat, (∀ n ∈ ns, n < 16 ^ 8) →
      (ns.map hex8).mapM parseHex8 = some ns := by
  intro ns
  induction ns with
  | nil => intro _; rfl
  | cons n rest ih =>
    intro h
    rw [List.map_cons, List.mapM_cons,
      parseHex8_hex8 n (h n (List.mem_cons_self _ _)),
      ih (fun m hm => h m (List.mem_cons_of_mem _ hm))]
    rfl

theorem chunk5_flatten :
    ∀ gs : List (List Nat), (∀ g ∈ gs, g.length = 5) →
      chunk5 gs.flatten = some gs := by
  intro gs
  induction gs with
  | nil => intro _; rfl
  | cons g rest ih =>
    intro h
    have h5 : g.length = 5 := h g (List.mem_cons_self _ _)
    obtain ⟨a, b, c, d, e, hg⟩ : ∃ a b c d e, g = [a, b, c, d, e] := by
      cases g with
      | nil => simp at h5
      | cons a g1 =>
        cases g1 with
        | nil => simp at h5
        | cons b g2 =>
          cases g2 with
          | nil => simp at h5
          | cons c g3 =>
            cases g3 with
            | nil => simp at h5
            | cons d g4 =>
              cases g4 with
              | nil => simp at h5
              | cons e g5 =>
                cases g5 with
                | nil => exact ⟨a, b, c, d, e, rfl⟩
                | cons f g6 => simp at h5
    subst hg
    rw [List.flatten_cons, List.cons_append, List.cons_append, List.cons_append,
      List.cons_append, List.cons_append, List.nil_append]
    rw [show chunk5 (a :: b :: c :: d :: e :: List.flatten rest)
        = (chunk5 (List.flatten rest)).map (fun gs => [a, b, c, d, e] :: gs) from rfl]
    rw [ih (fun g hg => h g (List.mem_cons_of_mem _ hg))]
    rfl

theorem parsePacked_encode (gs : List (List Nat))
    (h : ∀ g ∈ gs, g.length = 5 ∧ ∀ n ∈ g, n < 16 ^ 8) :
    parsePacked (encodeVal (.packed gs)) = some gs := by
  unfold parsePacked encodeVal
  cases gs with
  | nil => rfl
  | cons g rest =>
    have hflat : (g :: rest).flatten ≠ [] := by
      have hg5 := (h g (List.mem_cons_self _ _)).1
      rw [List.flatten_cons]
      intro hh
      rcases List.append_eq_nil.1 hh with ⟨hg0, _⟩
      rw [hg0] at hg5
      simp at hg5
    have hmapne : ((g :: rest).flatten.map hex8) ≠ [] := by
      intro hh
      exact hflat (List.map_eq_nil_iff.1 hh)
    have hne : joinSep ['_'] ((g :: rest).flatten.map hex8) ≠ [] := by
      apply joinSep_ne_nil
      · intro x hx
        obtain ⟨n, _, rfl⟩ := List.mem_map.1 hx
        exact hex8_ne_nil n
      · exact hmapne
    rw [if_neg hne,
      splitChar_joinSep '_' _ hmapne (by
        intro x hx
        obtain ⟨n, _, rfl⟩ := List.mem_map.1 hx
        intro hc
        exact (mem_hex8 '_' n hc).1 rfl),
      mapM_parseHex8 _ (by
        intro n hn
        obtain ⟨g2, hg2, hng⟩ := List.mem_flatten.1 hn
        exact (h g2 hg2).2 n hng)]
    dsimp only
    exact chunk5_flatten _ (fun g2 hg2 => (h g2 hg2).1)

theorem splitFirst_append (c : Char) :
    ∀ k : List Char, c ∉ k → ∀ rest,
      splitFirst c (k ++ c :: rest) = some (k, rest) := by
  intro k
  induction k with
  | nil =>
    intro _ rest
    rw [List.nil_append,
      show splitFirst c (c :: rest)
        = if c = c then some ([], rest)
          else (splitFirst c rest).map (fun p => (c :: p.1, p.2)) from rfl,
      if_pos rfl]
  | cons d ds ih =>
    intro h rest
    have hd : d ≠ c := fun he => h (he ▸ List.mem_cons_self d ds)
    rw [List.cons_append,
      show splitFirst c (d :: (ds ++ c :: rest))
        = if d = c then some ([], ds ++ c :: rest)
          else (splitFirst c (ds ++ c :: rest)).map (fun p => (d :: p.1, p.2)) from rfl,
      if_neg hd, ih (fun hm => h (List.mem_cons_of_mem _ hm)) rest]
    rfl

theorem parseFeatEntry_encode (k : List Char) (v : Nat)
    (hk : ':' ∉ k) (hv : v < 16 ^ 8) :
    parseFeatEntry (k ++ ':' :: hex8 v) = some (k, v) := by
  unfold parseFeatEntry
  rw [splitFirst_append ':' k hk (hex8 v)]
  dsimp only
  rw [parseHex8_hex8 v hv]
  rfl

theorem mapM_parseFeatEntry :
    ∀ m : List (List Char × Nat),
      (∀ p ∈ m, ';' ∉ p.1 ∧ ':' ∉ p.1 ∧ p.2 < 16 ^ 8) →
      (m.map (fun p => p.1 ++ ':' :: hex8 p.2)).mapM parseFeatEntry = some m := by
  intro m
  induction m with
  | nil => intro _; rfl
  | cons p rest ih =>
    intro h
    rw [List.map_cons, List.mapM_cons,
      parseFeatEntry_encode p.1 p.2 (h p (List.mem_cons_self _ _)).2.1
        (h p (List.mem_cons_self _ _)).2.2,
      ih (fun q hq => h q (List.mem_cons_of_mem _ hq))]
    rfl

theorem parseFeats_encode (m : List (List Char × Nat))
    (h : ∀ p ∈ m, ';' ∉ p.1 ∧ ':' ∉ p.1 ∧ p.2 < 16 ^ 8) :
    parseFeats (encodeVal (.feats m)) = some m := by
  unfold parseFeats encodeVal
  cases m with
  | nil => rfl
  | cons p rest =>
    have hentne : ∀ x ∈ (p :: rest).map (fun q => q.1 ++ ':' :: hex8 q.2),
        x ≠ [] := by
      intro x hx
      obtain ⟨q, _, rfl⟩ := List.mem_map.1 hx
      simp
    have hmapne : ((p :: rest).map (fun q => q.1 ++ ':' :: hex8 q.2)) ≠ [] := by
      simp
    have hne : joinSep [';'] ((p :: rest).map (fun q => q.1 ++ ':' :: hex8 q.2)) ≠ [] :=
      joinSep_ne_nil _ _ hentne hmapne
    rw [if_neg hne,
      splitChar_joinSep ';' _ hmapne (by
        intro x hx
        obtain ⟨q, hq, rfl⟩ := List.mem_map.1 hx
        intro hc
        rcases List.mem_append.1 hc with hc | hc
        · exact (h q hq).1 hc
        · rcases List.mem_cons.1 hc with hc | hc
          · cases hc
          · exact (mem_hex8 ';' q.2 hc).2.1 rfl),
      mapM_parseFeatEntry (p :: rest) h]

theorem decodeVal_encodeVal (kind : FieldKind) (v : CodecVal)
    (h : WellFormedFor kind v) : decodeVal kind (encodeVal v) = v := by
  cases v with
  | kws l =>
    obtain ⟨hk, hwf⟩ := h
    subst hk
    exact decode_encode_kws l hwf
  | packed gs =>
    obtain ⟨hk, hwf⟩ := h
    subst hk
    simp [decodeVal, parsePacked_encode gs hwf]
  | feats m =>
    obtain ⟨hk, hwf⟩ := h
    subst hk
    simp [decodeVal, parseFeats_encode m hwf]
  | raw s => cases h

theorem rowGet_encodeRow :
    ∀ (d : CodecDoc) (f : String),
      rowGet (encodeRow d) f = (cdictGet d f).map encodeVal := by
  intro d
  induction d with
  | nil => intro f; rfl
  | cons p ps ih =>
    intro f
    by_cases hp : p.1 = f
    · simp [encodeRow, rowGet, cdictGet, hp]
    · simp only [encodeRow, List.map_cons, rowGet, cdictGet, if_neg hp]
      exact ih f

theorem cdictGet_mem :
    ∀ (d : CodecDoc) (f : String) (v : CodecVal),
      cdictGet d f = some v → (f, v) ∈ d := by
  intro d
  induction d with
  | nil => intro f v h; cases h
  | cons p ps ih =>
    intro f v h
    by_cases hp : p.1 = f
    · rw [show cdictGet (p :: ps) f
          = if p.1 = f then some p.2 else cdictGet ps f from rfl, if_pos hp] at h
      have hv : p.2 = v := Option.some.inj h
      rw [← hp, ← hv]
      exact List.mem_cons_self p ps
    · rw [show cdictGet (p :: ps) f
          = if p.1 = f then some p.2 else cdictGet ps f from rfl, if_neg hp] at h
      exact List.mem_cons_of_mem _ (ih f v h)

/-- C1 (spec-modelled): for every document over codec-covered fields that
is well formed for its declared kinds, decoding the encoded row — applied
only to the requested fields — returns exactly the document restricted to
the requested fields.  Keyword lists round-trip for any number of
elements, including zero and one; packed-integer page positions and
feature maps likewise.  The encoding side is the insert-path field
encoding of spec §4.4. -/
theorem codec_roundtrip (kindOf : String → FieldKind) (d : CodecDoc)
    (requested : List String)
    (h : ∀ p ∈ d, WellFormedFor (kindOf p.1) p.2) :
    decodeRow kindOf (encodeRow d) requested = restrictDoc d requested := by
  unfold decodeRow restrictDoc
  apply List.filterMap_congr
  intro f _
  rw [rowGet_encodeRow]
  cases hc : cdictGet d f with
  | none => rfl
  | some v =>
    have hwf : WellFormedFor (kindOf f) v := h (f, v) (cdictGet_mem d f v hc)
    simp [decodeVal_encodeVal (kindOf f) v hwf]

/-- Field-kind assignment for the C1 witness. -/
def wKindOf : String → FieldKind := fun f =>
  if f = "important_kwd" ∨ f = "question_kwd" ∨ f = "entity_kwd" then
    .keywordList
  else if f = "position_int" then .packedInts
  else .featureMap

/-- Concrete codec document for the C1 witness: a two-element keyword
list, an empty keyword list, a one-element keyword list, one packed
position 5-tuple and a one-entry feature map. -/
def wCodecDoc : CodecDoc :=
  [("important_kwd", .kws [['a'], ['b', 'c']]),
   ("question_kwd", .kws []),
   ("entity_kwd", .kws [['z']]),
   ("position_int", .packed [[1, 2, 3, 4, 5]]),
   ("tag_feas", .feats [(['x'], 3)])]

/-- Requested fields for the C1 witness (including an absent one). -/
def wReq : List String :=
  ["important_kwd", "question_kwd", "entity_kwd", "position_int",
   "tag_feas", "missing_fld"]

/-- Witness for C1 at a concrete document covering zero-, one- and
two-element lists. -/
theorem codec_roundtrip_witness :
    (∀ p ∈ wCodecDoc, WellFormedFor (wKindOf p.1) p.2) ∧
    decodeRow wKindOf (encodeRow wCodecDoc) wReq = restrictDoc wCodecDoc wReq :=
  ⟨by decide, codec_roundtrip wKindOf wCodecDoc wReq (by decide)⟩

end MilvusConn
